import Mathlib

/-!
# Verification of the Conceal wallet ledger core

A shallow embedding, in Lean 4, of the height-indexed cumulative deposit/token
indices (`DepositIndex`, `TokenTxIndex`, `TokenIndex`), the serializer
object-version stamp (`ISerializer`), and — modelled from the specification
where only declarations appear in the sources — the wallet transaction cache
(`WalletUserTransactionsCache`) and the unconfirmed-transaction tracker
(`WalletUnconfirmedTransactions`), together with theorems settling the
specification's claims about them.

Machine-integer conventions: `uint32`/`uint64` fields become `Nat`, `int64`
fields become `Int`.  The C++ code asserts that its running sums never
overflow, and the claims under verification restrict themselves to calls
whose running sums do not overflow, so arithmetic is modelled exactly
(no wrap-around); where a claim states the no-overflow precondition it
appears as an explicit hypothesis on the machine-word ranges.
-/

namespace Conceal

/-! ## DepositIndex (src/CryptoNoteCore/DepositIndex.h, implementation part_000)

`DepositIndex` keeps a sparse vector of checkpoints `{height, amount,
interest}` (cumulative sums, `amount : int64`, `interest : uint64`,
`height : uint32`) plus a logical `blockCount : uint32`. -/

structure DepositIndexEntry where
  height : Nat
  amount : Int
  interest : Nat
  deriving Repr, DecidableEq

structure DepositIndex where
  index : List DepositIndexEntry
  blockCount : Nat
  deriving Repr, DecidableEq

namespace DepositIndex

/-- `DepositIndex::DepositIndex()` — empty index, `blockCount = 0`. -/
def empty : DepositIndex := ⟨[], 0⟩

/-- `index.back().amount`, or `0` when the checkpoint vector is empty
(the `lastAmount` local computed at the top of `pushBlock`). -/
def lastAmount (d : DepositIndex) : Int :=
  match d.index.getLast? with
  | none => 0
  | some e => e.amount

/-- `index.back().interest`, or `0` when the checkpoint vector is empty
(the `lastInterest` local computed at the top of `pushBlock`). -/
def lastInterest (d : DepositIndex) : Nat :=
  match d.index.getLast? with
  | none => 0
  | some e => e.interest

/-- `DepositIndex::pushBlock(amount, interest)`: if `amount != 0`, append the
checkpoint `{blockCount, amount + lastAmount, interest + lastInterest}`;
always increment `blockCount`. -/
def pushBlock (d : DepositIndex) (amount : Int) (interest : Nat) : DepositIndex :=
  { index :=
      if amount ≠ 0 then
        d.index ++ [⟨d.blockCount, amount + d.lastAmount, interest + d.lastInterest⟩]
      else
        d.index
    blockCount := d.blockCount + 1 }

/-- `DepositIndex::popBlock()`: decrement `blockCount`; drop the last
checkpoint when its height equals the decremented count. -/
def popBlock (d : DepositIndex) : DepositIndex :=
  let bc := d.blockCount - 1
  { index :=
      match d.index.getLast? with
      | some e => if e.height = bc then d.index.dropLast else d.index
      | none => d.index
    blockCount := bc }

/-- `DepositIndex::size()` — the logical block count. -/
def size (d : DepositIndex) : Nat := d.blockCount

/-- `DepositIndex::fullDepositAmount()` — last checkpoint's cumulative
amount, or `0` when empty. -/
def fullDepositAmount (d : DepositIndex) : Int :=
  match d.index.getLast? with
  | none => 0
  | some e => e.amount

/-- `DepositIndex::fullInterestAmount()` — last checkpoint's cumulative
interest, or `0` when empty. -/
def fullInterestAmount (d : DepositIndex) : Nat :=
  match d.index.getLast? with
  | none => 0
  | some e => e.interest

/-- `DepositIndex::upperBound(height)`, as the distance from `begin()` of the
iterator returned by `std::upper_bound` with comparator
`height < entry.height`.  On a height-sorted checkpoint vector (the
precondition of `std::upper_bound`) that iterator is the first entry with
`entry.height > height`, i.e. the end of the maximal prefix of entries with
`entry.height ≤ height`. -/
def upperBoundIdx (d : DepositIndex) (height : Nat) : Nat :=
  (d.index.takeWhile (fun e => decide (e.height ≤ height))).length

/-- The iterator positioning inside `DepositIndex::popBlocks(from)`:
start at `upperBound(from)` (the end of the maximal prefix of entries with
height `≤ from`), then, unless already at `begin()`, step back one entry and
re-advance when that entry's height is not exactly `from`.  The result is
the position from which `index.erase(it, index.end())` erases. -/
def eraseStartIdx (l : List DepositIndexEntry) (from_ : Nat) : Nat :=
  let i0 := (l.takeWhile (fun e => decide (e.height ≤ from_))).length
  if i0 ≠ 0 then
    if (l[i0 - 1]?).map DepositIndexEntry.height = some from_ then i0 - 1 else i0
  else i0

/-- `DepositIndex::popBlocks(from)`: nothing to do when `from ≥ blockCount`;
otherwise erase the checkpoint tail starting at `eraseStartIdx`, and rewind
`blockCount` to `from`, returning the number of blocks rolled back. -/
def popBlocks (d : DepositIndex) (from_ : Nat) : DepositIndex × Nat :=
  if from_ ≥ d.blockCount then
    (d, 0)
  else
    let diff := d.blockCount - from_
    ({ index := d.index.take (eraseStartIdx d.index from_), blockCount := d.blockCount - diff },
     diff)

/-- `DepositIndex::depositAmountAtHeight(height)`: `0` when `blockCount = 0`
or when `upperBound(height)` is `begin()`; otherwise the amount of the entry
just before `upperBound(height)`. -/
def depositAmountAtHeight (d : DepositIndex) (height : Nat) : Int :=
  if d.blockCount = 0 then 0
  else
    let i := d.upperBoundIdx height
    if i = 0 then 0
    else
      match d.index[i - 1]? with
      | some e => e.amount
      | none => 0

/-- `DepositIndex::depositInterestAtHeight(height)` — as
`depositAmountAtHeight` but reading the interest field. -/
def depositInterestAtHeight (d : DepositIndex) (height : Nat) : Nat :=
  if d.blockCount = 0 then 0
  else
    let i := d.upperBoundIdx height
    if i = 0 then 0
    else
      match d.index[i - 1]? with
      | some e => e.interest
      | none => 0

end DepositIndex

/-! ## TokenTxIndex (src/CryptoNoteCore/DepositIndex.h, implementation part_000)

The token-transaction variant of the cumulative index.  Its `pushBlock`
stores the pushed `id` directly in the new checkpoint (`{blockCount,
amount + lastAmount, id}`); the code that would have accumulated a
`lastId` is commented out in the source. -/

structure TokenTxIndexEntry where
  height : Nat
  amount : Int
  id : Nat
  deriving Repr, DecidableEq

structure TokenTxIndex where
  index : List TokenTxIndexEntry
  blockCount : Nat
  deriving Repr, DecidableEq

namespace TokenTxIndex

/-- `TokenTxIndex::TokenTxIndex()` — empty index, `blockCount = 0`. -/
def empty : TokenTxIndex := ⟨[], 0⟩

/-- The `lastAmount` local of `TokenTxIndex::pushBlock`:
`index.back().amount`, or `0` when the vector is empty. -/
def lastAmount (t : TokenTxIndex) : Int :=
  match t.index.getLast? with
  | none => 0
  | some e => e.amount

/-- `TokenTxIndex::pushBlock(amount, id)`: if `amount != 0`, append the
checkpoint `{blockCount, amount + lastAmount, id}` — the `id` field is the
pushed argument itself, not a running sum; always increment `blockCount`.
The source asserts `amount >= 0`. -/
def pushBlock (t : TokenTxIndex) (amount : Int) (id : Nat) : TokenTxIndex :=
  { index :=
      if amount ≠ 0 then
        t.index ++ [⟨t.blockCount, amount + t.lastAmount, id⟩]
      else
        t.index
    blockCount := t.blockCount + 1 }

/-- `TokenTxIndex::size()`. -/
def size (t : TokenTxIndex) : Nat := t.blockCount

/-- `TokenTxIndex::known_token_ids()` — the last checkpoint's `id` field,
or `0` when empty. -/
def known_token_ids (t : TokenTxIndex) : Nat :=
  match t.index.getLast? with
  | none => 0
  | some e => e.id

end TokenTxIndex

/-! ## TokenIndex (src/CryptoNoteCore/TokenIndex.cpp)

The second token variant.  Queries return `Option Int`: `none` models an
out-of-bounds iterator dereference (undefined behaviour in the C++), which
happens whenever `--tk` is applied to `token_find`'s result while that
result is `index.cbegin()`. -/

structure TokenIndexEntry where
  height : Nat
  amount : Int
  token_id : Nat
  deriving Repr, DecidableEq

structure TokenIndex where
  index : List TokenIndexEntry
  blockCount : Nat
  deriving Repr, DecidableEq

namespace TokenIndex

/-- `TokenIndex::TokenIndex()` — empty index, `blockCount = 0`. -/
def empty : TokenIndex := ⟨[], 0⟩

/-- `TokenIndex::pushBlock(amount, interest)`.  The source initializes the
`lastInterest` local only in the `index.empty()` branch (the assignment in
the non-empty branch is commented out), so when the index is non-empty the
stored `token_id` field is `interest` plus an *uninitialized* value; the
`junk` argument makes that indeterminate read explicit. -/
def pushBlock (t : TokenIndex) (amount : Int) (interest : Nat) (junk : Nat) : TokenIndex :=
  let lastAmount : Int :=
    match t.index.getLast? with
    | none => 0
    | some e => e.amount
  let lastInterest : Nat := if t.index.isEmpty then 0 else junk
  { index :=
      if amount ≠ 0 then
        t.index ++ [⟨t.blockCount, amount + lastAmount, interest + lastInterest⟩]
      else
        t.index
    blockCount := t.blockCount + 1 }

/-- `TokenIndex::upperBound(height)` as a position, like
`DepositIndex.upperBoundIdx`. -/
def upperBoundIdx (t : TokenIndex) (height : Nat) : Nat :=
  (t.index.takeWhile (fun e => decide (e.height ≤ height))).length

/-- `TokenIndex::token_find(token_id)` as a position: `std::upper_bound`
over the checkpoint vector with comparator `token_id < entry.token_id`, i.e.
(on a vector partitioned for that predicate) the end of the maximal prefix
of entries with `entry.token_id ≤ token_id`. -/
def token_findIdx (t : TokenIndex) (token_id : Nat) : Nat :=
  (t.index.takeWhile (fun e => decide (e.token_id ≤ token_id))).length

/-- `TokenIndex::full_token_amount(token_id)`: computes
`tk = token_find(token_id)` and immediately dereferences `--tk`.  When
`token_find` returns `cbegin()` (in particular whenever the checkpoint
vector is empty) the decrement steps before the start of the vector and the
dereference is out of bounds — modelled as `none`.  Otherwise the source
returns `index.back().amount` when the entry's `token_id > 0` and the vector
is non-empty, and `0` in the remaining cases. -/
def full_token_amount (t : TokenIndex) (token_id : Nat) : Option Int :=
  let i := t.token_findIdx token_id
  if i = 0 then none
  else
    match t.index[i - 1]? with
    | none => none
    | some e =>
      if e.token_id > 0 then
        some (match t.index.getLast? with
              | none => 0
              | some last => last.amount)
      else
        some 0

/-- `TokenIndex::tokens_at_height(height, token_id)`: returns `0` when
`blockCount = 0`; otherwise computes `tk = token_find(token_id)` and
dereferences `--tk` without checking `tk != cbegin()` — out of bounds
(`none`) whenever `token_find` returns the beginning of the vector.  When
the probed entry has `token_id > 0` it performs the height upper-bound
lookup; otherwise it returns `0`. -/
def tokens_at_height (t : TokenIndex) (height : Nat) (token_id : Nat) : Option Int :=
  if t.blockCount = 0 then some 0
  else
    let i := t.token_findIdx token_id
    if i = 0 then none
    else
      match t.index[i - 1]? with
      | none => none
      | some e =>
        if e.token_id > 0 then
          let j := t.upperBoundIdx height
          if j = 0 then some 0
          else
            match t.index[j - 1]? with
            | some e2 => some e2.amount
            | none => none
        else
          some 0

end TokenIndex

/-! ## ISerializer object version (part_002)

`ISerializer` carries a `boost::optional<uint64_t> objectVersion`;
`setObjectVersion` throws if it is already set, `getObjectVersion` throws if
it is not set.  A thrown exception is modelled as `Except.error` carrying
the exception message; a state is returned only on success, so a throwing
`setObjectVersion` leaves the stored version unchanged. -/

/-- `ISerializer::setObjectVersion(v)`: throw if `objectVersion` is already
engaged (leaving the member untouched), otherwise store `v`.  The result is
the stored version after the call, paired with the thrown exception message
if one was raised. -/
def setObjectVersion (objectVersion : Option Nat) (v : Nat) :
    Option Nat × Option String :=
  match objectVersion with
  | some w => (some w, some "Object version is already set")
  | none => (some v, none)

/-- `ISerializer::getObjectVersion()`: error if `objectVersion` is not
engaged, otherwise return the stored value. -/
def getObjectVersion (objectVersion : Option Nat) : Except String Nat :=
  match objectVersion with
  | none => .error "Object version is not set"
  | some v => .ok v

/-! ## Wallet cache and unconfirmed-transaction tracker (spec-modelled)

Only the declarations of `WalletUserTransactionsCache` and
`WalletUnconfirmedTransactions` appear in the sources
(`src/WalletLegacy/WalletUserTransactionsCache.h`,
`src/WalletLegacy/WalletUnconfirmedTransactions.h`); their method bodies are
not part of the repository snapshot, so the definitions below are modelled
from the specification.  `crypto::Hash` values, public keys and identifiers
are modelled as `Nat`; an output is the pair (owning public key, output
index) as in `TransactionOutputId`. -/

/-- Deposit record (spec §3): owning (creating) transaction id, amount,
interest, term, spending-transaction id (if withdrawn), locked flag. -/
structure Deposit where
  creatingTransactionId : Nat
  spendingTransactionId : Option Nat
  amount : Nat
  interest : Nat
  term : Nat
  locked : Bool
  deriving Repr, DecidableEq

/-- The deposit table and its output-to-deposit secondary index, the part of
`WalletUserTransactionsCache` state that `insertDeposit` touches:
`m_deposits` and `m_transactionOutputToDepositIndex` (a mapping
`(creating transaction hash, outputIndexInTransaction) → DepositId`). -/
structure DepositCache where
  deposits : List Deposit
  transactionOutputToDepositIndex : List ((Nat × Nat) × Nat)
  deriving Repr, DecidableEq

namespace DepositCache

/-- The empty cache. -/
def empty : DepositCache := ⟨[], []⟩

/-- Whether `(transactionHash, indexInTransaction)` is already registered in
the output-to-deposit index. -/
def registered (c : DepositCache) (key : Nat × Nat) : Bool :=
  (c.transactionOutputToDepositIndex.map Prod.fst).contains key

/-- Modelled from the spec: the body of
`WalletUserTransactionsCache::insertDeposit(deposit, indexInTransaction,
transactionHash)` (only its declaration is in the sources).  Allocates a new
`Deposit` record under a fresh dense `DepositId` and registers it in the
output-to-deposit index keyed by `(transactionHash, indexInTransaction)`;
rejects (no-op) when that key is already registered. -/
def insertDeposit (c : DepositCache) (deposit : Deposit)
    (indexInTransaction : Nat) (transactionHash : Nat) : DepositCache × Option Nat :=
  let key := (transactionHash, indexInTransaction)
  if c.registered key then
    (c, none)
  else
    let id := c.deposits.length
    ({ deposits := c.deposits ++ [deposit]
       transactionOutputToDepositIndex := c.transactionOutputToDepositIndex ++ [(key, id)] },
     some id)

/-- The number of `insertDeposit` calls in `calls` (each a
`(deposit, indexInTransaction, transactionHash)` triple, applied in order)
that succeed while registering the key `k`. -/
def successCount (c : DepositCache) (k : Nat × Nat) :
    List (Deposit × Nat × Nat) → Nat
  | [] => 0
  | (dep, i, h) :: rest =>
    let r := c.insertDeposit dep i h
    (if (h, i) = k ∧ r.2.isSome then 1 else 0) + successCount r.1 k rest

end DepositCache

/-- Unconfirmed transfer details (spec §3): owning `TransactionId`, claimed
amount, the set of outputs the pending transaction consumes, submission
timestamp. -/
structure UnconfirmedTransferDetails where
  transactionId : Nat
  amount : Nat
  usedOutputs : List (Nat × Nat)
  sentTime : Nat
  deriving Repr, DecidableEq

/-- The `WalletUnconfirmedTransactions` tracker state that `add`, `erase`
and `isUsed` touch: `m_unconfirmedTxs` (keyed by transaction hash) and the
global `m_usedOutputs` set. -/
structure WalletUnconfirmedTransactions where
  unconfirmedTxs : List (Nat × UnconfirmedTransferDetails)
  usedOutputs : List (Nat × Nat)
  deriving Repr, DecidableEq

namespace WalletUnconfirmedTransactions

/-- The empty tracker. -/
def empty : WalletUnconfirmedTransactions := ⟨[], []⟩

/-- Modelled from the spec: the body of
`WalletUnconfirmedTransactions::isUsed(out)` (only its declaration is in the
sources) — whether the output is in the global used-outputs set. -/
def isUsed (w : WalletUnconfirmedTransactions) (out : Nat × Nat) : Bool :=
  w.usedOutputs.contains out

/-- Modelled from the spec: the body of
`WalletUnconfirmedTransactions::add(tx, transactionId, amount, usedOutputs)`
(only its declaration is in the sources).  Records a new pending transaction
keyed by its hash and adds the outputs it consumes to the global
used-outputs set. -/
def add (w : WalletUnconfirmedTransactions) (hash : Nat)
    (transactionId amount : Nat) (usedOutputs : List (Nat × Nat))
    (sentTime : Nat) : WalletUnconfirmedTransactions :=
  { unconfirmedTxs :=
      w.unconfirmedTxs ++ [(hash, ⟨transactionId, amount, usedOutputs, sentTime⟩)]
    usedOutputs := w.usedOutputs ++ usedOutputs }

/-- Modelled from the spec: the body of
`WalletUnconfirmedTransactions::erase(hash)` (only its declaration is in the
sources).  Removes the pending record for `hash`, if any, and releases the
outputs it claimed; a hash that is not present is a no-op (not-found
conditions never throw). -/
def erase (w : WalletUnconfirmedTransactions) (hash : Nat) :
    WalletUnconfirmedTransactions :=
  match w.unconfirmedTxs.lookup hash with
  | none => w
  | some r =>
    { unconfirmedTxs := w.unconfirmedTxs.filter (fun p => decide (p.1 ≠ hash))
      usedOutputs := w.usedOutputs.filter (fun o => decide (o ∉ r.usedOutputs)) }

end WalletUnconfirmedTransactions

/-- Tracker states reachable from the empty tracker by calls respecting the
external contract of spec §4.2: the caller never `add`s a hash that is
already pending and never claims an output that `isUsed` already reports
(enforcement of "don't double-select" belongs to the output-selection logic
upstream). -/
inductive TrackerReachable : WalletUnconfirmedTransactions → Prop where
  | empty : TrackerReachable WalletUnconfirmedTransactions.empty
  | add (w : WalletUnconfirmedTransactions) (hash id amt : Nat)
      (outs : List (Nat × Nat)) (time : Nat) :
      TrackerReachable w →
      (∀ p ∈ w.unconfirmedTxs, p.1 ≠ hash) →
      (∀ o ∈ outs, w.isUsed o = false) →
      TrackerReachable (w.add hash id amt outs time)
  | erase (w : WalletUnconfirmedTransactions) (hash : Nat) :
      TrackerReachable w → TrackerReachable (w.erase hash)

/-- Transaction state (spec §3). -/
inductive TxState where
  | Active
  | Deleted
  | Sending
  | Cancelled
  | Failed
  deriving Repr, DecidableEq

/-- Transaction record fields relevant to rollback: hash, local id, block
height, state. -/
structure CacheTransaction where
  hash : Nat
  transactionId : Nat
  blockHeight : Nat
  state : TxState
  deriving Repr, DecidableEq

/-- Ledger-change event descriptors returned by the mutation methods
(spec §4.3 / §6). -/
inductive WalletLegacyEvent where
  | transactionUpdated (transactionId : Nat)
  | depositsUpdated (depositIds : List Nat)
  deriving Repr, DecidableEq

/-- The `WalletUserTransactionsCache` state that `onTransactionDeleted`
touches: the transaction table, the deposit table and the created-deposit
pending bookkeeping. -/
structure TransactionsCache where
  transactions : List CacheTransaction
  deposits : List Deposit
  createdDeposits : List Nat
  deriving Repr, DecidableEq

namespace TransactionsCache

/-- Modelled from the spec: the body of
`WalletUserTransactionsCache::onTransactionDeleted(transactionHash)` (only
its declaration is in the sources).  Finds the local record for the hash (a
missing hash is a recoverable not-found: no events); if it is already
`Deleted` the repeated rollback notification is a no-op with no events;
otherwise it marks the transaction `Deleted` (keeping its slot), re-locks
the deposits the transaction had spent (clearing their spending link),
drops the created-deposit bookkeeping for deposits it created, and returns
the events describing the reversal. -/
def onTransactionDeleted (c : TransactionsCache) (transactionHash : Nat) :
    TransactionsCache × List WalletLegacyEvent :=
  match c.transactions.find? (fun t => t.hash == transactionHash) with
  | none => (c, [])
  | some tx =>
    if tx.state = TxState.Deleted then
      (c, [])
    else
      let relockedIds :=
        (List.range c.deposits.length).filter (fun i =>
          match c.deposits[i]? with
          | some dep => decide (dep.spendingTransactionId = some tx.transactionId)
          | none => false)
      let deposits' := c.deposits.map (fun dep =>
        if dep.spendingTransactionId = some tx.transactionId then
          { dep with locked := true, spendingTransactionId := none }
        else dep)
      let transactions' := c.transactions.map (fun t =>
        if t.hash = transactionHash then { t with state := TxState.Deleted } else t)
      let createdDeposits' := c.createdDeposits.filter (fun i =>
        match c.deposits[i]? with
        | some dep => decide (dep.creatingTransactionId ≠ tx.transactionId)
        | none => true)
      ({ transactions := transactions', deposits := deposits'
         createdDeposits := createdDeposits' },
       WalletLegacyEvent.transactionUpdated tx.transactionId ::
         (if relockedIds.isEmpty then [] else [WalletLegacyEvent.depositsUpdated relockedIds]))

end TransactionsCache

/-! ## Operation sequences and invariants for `DepositIndex` -/

/-- A single `DepositIndex` mutation: `pushBlock(amount, interest)` or
`popBlock()`. -/
inductive DepositOp where
  | push (amount : Int) (interest : Nat)
  | pop
  deriving Repr, DecidableEq

/-- Apply a sequence of `pushBlock`/`popBlock` calls, left to right. -/
def applyOps : DepositIndex → List DepositOp → DepositIndex
  | d, [] => d
  | d, .push a i :: rest => applyOps (d.pushBlock a i) rest
  | d, .pop :: rest => applyOps d.popBlock rest

/-- A sequence of calls is valid when every `popBlock` is applied to a state
with positive block count (the `assert(blockCount > 0)` in the source). -/
def validOps : DepositIndex → List DepositOp → Bool
  | _, [] => true
  | d, .push a i :: rest => validOps (d.pushBlock a i) rest
  | d, .pop :: rest => decide (0 < d.blockCount) && validOps d.popBlock rest

/-- Number of `pushBlock` calls in a sequence. -/
def numPushes : List DepositOp → Nat
  | [] => 0
  | .push _ _ :: rest => numPushes rest + 1
  | .pop :: rest => numPushes rest

/-- Number of `popBlock` calls in a sequence. -/
def numPops : List DepositOp → Nat
  | [] => 0
  | .push _ _ :: rest => numPops rest
  | .pop :: rest => numPops rest + 1

/-- Apply `pushBlock` for each `(amount, interest)` pair, left to right. -/
def pushAll (d : DepositIndex) (l : List (Int × Nat)) : DepositIndex :=
  l.foldl (fun d p => d.pushBlock p.1 p.2) d

/-- Run the push/pop sequence as a stack of `(amount, interest)` pairs: a
push appends its pair, a pop discards the most recent surviving pair.
`stackRun [] ops` is the list of pushes of `ops` that no pop has undone. -/
def stackRun (st : List (Int × Nat)) (ops : List DepositOp) : List (Int × Nat) :=
  ops.foldl
    (fun st op =>
      match op with
      | .push a i => st ++ [(a, i)]
      | .pop => st.dropLast)
    st

/-- The pushes of `ops` that have not been undone by a later pop. -/
def survivingPushes (ops : List DepositOp) : List (Int × Nat) :=
  stackRun [] ops

/-- The checkpoint heights are strictly increasing along the vector. -/
def HeightsSorted (d : DepositIndex) : Prop :=
  List.Pairwise (fun a b => a.height < b.height) d.index

/-- Every checkpoint's height is strictly below the logical block count. -/
def HeightsBounded (d : DepositIndex) : Prop :=
  ∀ e ∈ d.index, e.height < d.blockCount

/-- The `DepositIndex` data invariant. -/
def DepositInv (d : DepositIndex) : Prop :=
  HeightsSorted d ∧ HeightsBounded d

instance (d : DepositIndex) : Decidable (HeightsSorted d) := by
  unfold HeightsSorted; infer_instance

instance (d : DepositIndex) : Decidable (HeightsBounded d) := by
  unfold HeightsBounded; infer_instance

instance (d : DepositIndex) : Decidable (DepositInv d) := by
  unfold DepositInv; infer_instance

/-- States reachable from the empty `DepositIndex` by `pushBlock`,
`popBlock` (on a positive block count, per the source's assert) and
`popBlocks`. -/
inductive Reachable : DepositIndex → Prop where
  | empty : Reachable DepositIndex.empty
  | push (d : DepositIndex) (a : Int) (i : Nat) :
      Reachable d → Reachable (d.pushBlock a i)
  | pop (d : DepositIndex) :
      Reachable d → 0 < d.blockCount → Reachable d.popBlock
  | pops (d : DepositIndex) (f : Nat) :
      Reachable d → Reachable (d.popBlocks f).1

/-! ## Shared helper lemmas -/

theorem pushBlock_index_of_ne (d : DepositIndex) (a : Int) (i : Nat) (h : a ≠ 0) :
    (d.pushBlock a i).index
      = d.index ++ [⟨d.blockCount, a + d.lastAmount, i + d.lastInterest⟩] := by
  simp [DepositIndex.pushBlock, h]

theorem pushBlock_index_of_zero (d : DepositIndex) (i : Nat) :
    (d.pushBlock 0 i).index = d.index := by
  simp [DepositIndex.pushBlock]

theorem pushBlock_fullInterest (d : DepositIndex) (a : Int) (i : Nat) (h : a ≠ 0) :
    (d.pushBlock a i).fullInterestAmount = d.fullInterestAmount + i := by
  simp [DepositIndex.pushBlock, DepositIndex.fullInterestAmount, h,
    DepositIndex.lastInterest]
  omega

theorem pushBlock_fullAmount (d : DepositIndex) (a : Int) (i : Nat) :
    (d.pushBlock a i).fullDepositAmount = d.fullDepositAmount + a := by
  by_cases h : a = 0
  · subst h; simp [DepositIndex.pushBlock, DepositIndex.fullDepositAmount]
  · simp [DepositIndex.pushBlock, DepositIndex.fullDepositAmount, h,
      DepositIndex.lastAmount]
    ring

theorem pushAll_cons (d : DepositIndex) (p : Int × Nat) (l : List (Int × Nat)) :
    pushAll d (p :: l) = pushAll (d.pushBlock p.1 p.2) l := rfl

theorem pushAll_fullInterest (l : List (Int × Nat)) :
    ∀ d : DepositIndex, (∀ p ∈ l, p.1 ≠ 0) →
      (pushAll d l).fullInterestAmount
        = d.fullInterestAmount + (l.map Prod.snd).sum := by
  induction l with
  | nil => intro d _; simp [pushAll]
  | cons p rest ih =>
    intro d hall
    have hp : p.1 ≠ 0 := hall p (by simp)
    have hrest : ∀ q ∈ rest, q.1 ≠ 0 := fun q hq => hall q (by simp [hq])
    rw [pushAll_cons, ih _ hrest, pushBlock_fullInterest d p.1 p.2 hp]
    simp
    omega

theorem pushAll_fullAmount (l : List (Int × Nat)) :
    ∀ d : DepositIndex,
      (pushAll d l).fullDepositAmount
        = d.fullDepositAmount + (l.map Prod.fst).sum := by
  induction l with
  | nil => intro d; simp [pushAll]
  | cons p rest ih =>
    intro d
    rw [pushAll_cons, ih _, pushBlock_fullAmount d p.1 p.2]
    simp
    ring

theorem DepositInv_empty : DepositInv DepositIndex.empty := by decide

theorem DepositInv_pushBlock (d : DepositIndex) (a : Int) (i : Nat)
    (h : DepositInv d) : DepositInv (d.pushBlock a i) := by
  obtain ⟨hs, hb⟩ := h
  have hbc : (d.pushBlock a i).blockCount = d.blockCount + 1 := rfl
  by_cases ha : a = 0
  · subst ha
    constructor
    · show List.Pairwise _ (d.pushBlock 0 i).index
      rw [pushBlock_index_of_zero]
      exact hs
    · intro e he
      rw [pushBlock_index_of_zero] at he
      have := hb e he
      rw [hbc]
      omega
  · constructor
    · show List.Pairwise _ (d.pushBlock a i).index
      rw [pushBlock_index_of_ne d a i ha, List.pairwise_append]
      refine ⟨hs, by simp, ?_⟩
      intro x hx y hy
      simp at hy
      subst hy
      exact hb x hx
    · intro e he
      rw [pushBlock_index_of_ne d a i ha] at he
      rw [hbc]
      rcases List.mem_append.1 he with h1 | h2
      · have := hb e h1; omega
      · simp at h2; subst h2; simp

theorem pushBlock_popBlock (d : DepositIndex) (a : Int) (i : Nat)
    (h : HeightsBounded d) : (d.pushBlock a i).popBlock = d := by
  by_cases ha : a = 0
  · subst ha
    show DepositIndex.popBlock _ = d
    unfold DepositIndex.popBlock
    rw [pushBlock_index_of_zero]
    have hbc : (d.pushBlock 0 i).blockCount - 1 = d.blockCount := rfl
    cases hg : d.index.getLast? with
    | none => simp [hbc]
    | some e =>
      have he : e ∈ d.index := List.mem_of_getLast?_eq_some hg
      have hlt := h e he
      rw [hbc]
      simp only [if_neg (by omega : ¬e.height = d.blockCount)]
  · show DepositIndex.popBlock _ = d
    unfold DepositIndex.popBlock
    rw [pushBlock_index_of_ne d a i ha]
    have hbc : (d.pushBlock a i).blockCount - 1 = d.blockCount := rfl
    rw [hbc, List.getLast?_concat]
    simp

theorem pushAll_concat (d : DepositIndex) (l : List (Int × Nat)) (p : Int × Nat) :
    pushAll d (l ++ [p]) = (pushAll d l).pushBlock p.1 p.2 := by
  simp [pushAll, List.foldl_append]

theorem pushAll_blockCount (l : List (Int × Nat)) :
    ∀ d : DepositIndex, (pushAll d l).blockCount = d.blockCount + l.length := by
  induction l with
  | nil => intro d; simp [pushAll]
  | cons p rest ih =>
    intro d
    rw [pushAll_cons, ih]
    show (d.pushBlock p.1 p.2).blockCount + rest.length = _
    have : (d.pushBlock p.1 p.2).blockCount = d.blockCount + 1 := rfl
    rw [this]
    simp
    omega

theorem DepositInv_pushAll (l : List (Int × Nat)) :
    ∀ d : DepositIndex, DepositInv d → DepositInv (pushAll d l) := by
  induction l with
  | nil => intro d h; exact h
  | cons p rest ih =>
    intro d h
    rw [pushAll_cons]
    exact ih _ (DepositInv_pushBlock d p.1 p.2 h)

theorem applyOps_stack (ops : List DepositOp) :
    ∀ st : List (Int × Nat),
      validOps (pushAll DepositIndex.empty st) ops = true →
      applyOps (pushAll DepositIndex.empty st) ops
        = pushAll DepositIndex.empty (stackRun st ops) := by
  induction ops with
  | nil => intro st _; rfl
  | cons op rest ih =>
    intro st hv
    cases op with
    | push a i =>
      have h1 : (pushAll DepositIndex.empty st).pushBlock a i
          = pushAll DepositIndex.empty (st ++ [(a, i)]) :=
        (pushAll_concat DepositIndex.empty st (a, i)).symm
      have hv' : validOps (pushAll DepositIndex.empty (st ++ [(a, i)])) rest = true := by
        rw [← h1]; exact hv
      show applyOps ((pushAll DepositIndex.empty st).pushBlock a i) rest = _
      rw [h1, ih (st ++ [(a, i)]) hv']
      rfl
    | pop =>
      have hv' : 0 < (pushAll DepositIndex.empty st).blockCount
          ∧ validOps (pushAll DepositIndex.empty st).popBlock rest = true := by
        have : validOps (pushAll DepositIndex.empty st) (DepositOp.pop :: rest)
            = (decide (0 < (pushAll DepositIndex.empty st).blockCount)
                && validOps (pushAll DepositIndex.empty st).popBlock rest) := rfl
        rw [this] at hv
        simpa using hv
      obtain ⟨hpos, hrest⟩ := hv'
      have hst : st ≠ [] := by
        intro hnil
        subst hnil
        simp [pushAll, DepositIndex.empty] at hpos
      have hdecomp : st.dropLast ++ [st.getLast hst] = st :=
        List.dropLast_concat_getLast hst
      have hpp : pushAll DepositIndex.empty st
          = (pushAll DepositIndex.empty st.dropLast).pushBlock
              (st.getLast hst).1 (st.getLast hst).2 := by
        conv_lhs => rw [← hdecomp]
        exact pushAll_concat _ _ _
      have hpop : (pushAll DepositIndex.empty st).popBlock
          = pushAll DepositIndex.empty st.dropLast := by
        rw [hpp]
        exact pushBlock_popBlock _ _ _
          (DepositInv_pushAll st.dropLast DepositIndex.empty DepositInv_empty).2
      have hrest' : validOps (pushAll DepositIndex.empty st.dropLast) rest = true := by
        rw [← hpop]; exact hrest
      show applyOps (pushAll DepositIndex.empty st).popBlock rest = _
      rw [hpop, ih st.dropLast hrest']
      rfl

theorem applyOps_blockCount (ops : List DepositOp) :
    ∀ d : DepositIndex, validOps d ops = true →
      (applyOps d ops).blockCount + numPops ops = d.blockCount + numPushes ops := by
  induction ops with
  | nil => intro d _; simp [applyOps, numPops, numPushes]
  | cons op rest ih =>
    intro d hv
    cases op with
    | push a i =>
      have h1 := ih (d.pushBlock a i) hv
      have h2 : (d.pushBlock a i).blockCount = d.blockCount + 1 := rfl
      show (applyOps (d.pushBlock a i) rest).blockCount + numPops rest
          = d.blockCount + (numPushes rest + 1)
      omega
    | pop =>
      have hv' : 0 < d.blockCount ∧ validOps d.popBlock rest = true := by
        have : validOps d (DepositOp.pop :: rest)
            = (decide (0 < d.blockCount) && validOps d.popBlock rest) := rfl
        rw [this] at hv
        simpa using hv
      have h1 := ih d.popBlock hv'.2
      have h2 : d.popBlock.blockCount = d.blockCount - 1 := rfl
      have h3 := hv'.1
      show (applyOps d.popBlock rest).blockCount + (numPops rest + 1)
          = d.blockCount + numPushes rest
      omega

theorem sorted_filter_eq_takeWhile (p : DepositIndexEntry → Bool)
    (hp : ∀ a b : DepositIndexEntry, a.height ≤ b.height → p b = true → p a = true) :
    ∀ l : List DepositIndexEntry,
      List.Pairwise (fun a b => a.height < b.height) l →
      l.filter p = l.takeWhile p := by
  intro l
  induction l with
  | nil => intro _; rfl
  | cons e t ih =>
    intro hpw
    rw [List.pairwise_cons] at hpw
    obtain ⟨hall, hpt⟩ := hpw
    cases hpe : p e with
    | true =>
      rw [List.filter_cons_of_pos hpe, List.takeWhile_cons_of_pos hpe, ih hpt]
    | false =>
      rw [List.filter_cons_of_neg (by simp [hpe]),
        List.takeWhile_cons_of_neg (by simp [hpe])]
      rw [List.filter_eq_nil_iff]
      intro b hb hpb
      have : p e = true := hp e b (le_of_lt (hall b hb)) hpb
      rw [hpe] at this
      exact Bool.false_ne_true this

theorem takeWhile_lt_nil_of_le_nil (f : Nat) (t : List DepositIndexEntry)
    (h : t.takeWhile (fun e => decide (e.height ≤ f)) = []) :
    t.takeWhile (fun e => decide (e.height < f)) = [] := by
  cases t with
  | nil => rfl
  | cons u t' =>
    rw [List.takeWhile_cons] at h ⊢
    by_cases hu : u.height ≤ f
    · simp [hu] at h
    · simp [show ¬(u.height < f) by omega]

theorem take_eraseStartIdx (from_ : Nat) :
    ∀ l : List DepositIndexEntry,
      List.Pairwise (fun a b => a.height < b.height) l →
      l.take (DepositIndex.eraseStartIdx l from_)
        = l.takeWhile (fun e => decide (e.height < from_)) := by
  intro l
  induction l with
  | nil => intro _; rfl
  | cons e t ih =>
    intro hpw
    rw [List.pairwise_cons] at hpw
    obtain ⟨hall, hpt⟩ := hpw
    by_cases hle : e.height ≤ from_
    · have htw : (e :: t).takeWhile (fun x => decide (x.height ≤ from_))
          = e :: t.takeWhile (fun x => decide (x.height ≤ from_)) :=
        List.takeWhile_cons_of_pos (by simpa using hle)
      cases hc : (t.takeWhile (fun x => decide (x.height ≤ from_))).length with
      | zero =>
        have htwt : t.takeWhile (fun x => decide (x.height ≤ from_)) = [] :=
          List.length_eq_zero.1 hc
        have htlt : t.takeWhile (fun x => decide (x.height < from_)) = [] :=
          takeWhile_lt_nil_of_le_nil from_ t htwt
        by_cases hef : e.height = from_
        · have hidx : DepositIndex.eraseStartIdx (e :: t) from_ = 0 := by
            unfold DepositIndex.eraseStartIdx
            rw [htw]
            simp [hc, hef]
          rw [hidx]
          rw [List.takeWhile_cons_of_neg (by simp; omega)]
          rfl
        · have hidx : DepositIndex.eraseStartIdx (e :: t) from_ = 1 := by
            unfold DepositIndex.eraseStartIdx
            rw [htw]
            simp [hc, hef]
          rw [hidx]
          rw [List.takeWhile_cons_of_pos (by simp; omega)]
          rw [htlt]
          rfl
      | succ k =>
        have hhead : e.height < from_ := by
          cases t with
          | nil => simp at hc
          | cons u t' =>
            have hu : u.height ≤ from_ := by
              by_contra hu
              rw [List.takeWhile_cons_of_neg (by simpa using hu)] at hc
              simp at hc
            have := hall u (by simp)
            omega
        have hidx : DepositIndex.eraseStartIdx (e :: t) from_
            = DepositIndex.eraseStartIdx t from_ + 1 := by
          unfold DepositIndex.eraseStartIdx
          rw [htw]
          simp only [List.length_cons, hc]
          rw [if_pos (show k + 1 + 1 ≠ 0 by omega), if_pos (show k + 1 ≠ 0 by omega)]
          have h1 : k + 1 + 1 - 1 = k + 1 := rfl
          have h2 : k + 1 - 1 = k := rfl
          rw [h1, h2, List.getElem?_cons_succ]
          split
          · omega
          · omega
        rw [hidx]
        rw [List.take_succ_cons, List.takeWhile_cons_of_pos (by simpa using hhead),
          ih hpt]
    · have htw0 : (e :: t).takeWhile (fun x => decide (x.height ≤ from_)) = [] :=
        List.takeWhile_cons_of_neg (by simpa using hle)
      have hidx : DepositIndex.eraseStartIdx (e :: t) from_ = 0 := by
        unfold DepositIndex.eraseStartIdx
        rw [htw0]
        simp
      rw [hidx]
      rw [List.takeWhile_cons_of_neg (by simp; omega)]
      rfl

theorem DepositInv_popBlock (d : DepositIndex) (h : DepositInv d) :
    DepositInv d.popBlock := by
  obtain ⟨hs, hb⟩ := h
  have hbc : d.popBlock.blockCount = d.blockCount - 1 := rfl
  cases hG : d.index.getLast? with
  | none =>
    have hnil : d.index = [] := List.getLast?_eq_none_iff.1 hG
    have hidx : d.popBlock.index = d.index := by
      unfold DepositIndex.popBlock
      rw [hG]
    constructor
    · show List.Pairwise _ d.popBlock.index
      rw [hidx]
      exact hs
    · intro x hx
      rw [hidx, hnil] at hx
      cases hx
  | some e =>
    have hdecomp : d.index.dropLast ++ [e] = d.index :=
      List.dropLast_append_getLast? e hG
    have he_lt : e.height < d.blockCount :=
      hb e (List.mem_of_getLast?_eq_some hG)
    have hpw' : List.Pairwise (fun a b => a.height < b.height)
        (d.index.dropLast ++ [e]) := by
      rw [hdecomp]; exact hs
    rw [List.pairwise_append] at hpw'
    by_cases hh : e.height = d.blockCount - 1
    · have hidx : d.popBlock.index = d.index.dropLast := by
        unfold DepositIndex.popBlock
        rw [hG]
        simp [hh]
      constructor
      · show List.Pairwise _ d.popBlock.index
        rw [hidx]
        exact List.Pairwise.sublist (List.dropLast_sublist _) hs
      · intro x hx
        rw [hidx] at hx
        have := hpw'.2.2 x hx e (by simp)
        rw [hbc]
        omega
    · have hidx : d.popBlock.index = d.index := by
        unfold DepositIndex.popBlock
        rw [hG]
        simp [hh]
      constructor
      · show List.Pairwise _ d.popBlock.index
        rw [hidx]
        exact hs
      · intro x hx
        rw [hidx, ← hdecomp] at hx
        rw [hbc]
        rcases List.mem_append.1 hx with h1 | h2
        · have := hpw'.2.2 x h1 e (by simp)
          omega
        · simp at h2
          subst h2
          omega

theorem DepositInv_popBlocks (d : DepositIndex) (f : Nat) (h : DepositInv d) :
    DepositInv (d.popBlocks f).1 := by
  obtain ⟨hs, hb⟩ := h
  by_cases hge : f ≥ d.blockCount
  · have hpop : d.popBlocks f = (d, 0) := by
      unfold DepositIndex.popBlocks
      rw [if_pos hge]
    rw [hpop]
    exact ⟨hs, hb⟩
  · have hpop : d.popBlocks f
        = ({ index := d.index.take (DepositIndex.eraseStartIdx d.index f),
             blockCount := d.blockCount - (d.blockCount - f) },
           d.blockCount - f) := by
      unfold DepositIndex.popBlocks
      rw [if_neg hge]
    rw [hpop]
    constructor
    · show List.Pairwise _ (d.index.take (DepositIndex.eraseStartIdx d.index f))
      exact List.Pairwise.sublist (List.take_sublist _ _) hs
    · intro x hx
      show x.height < d.blockCount - (d.blockCount - f)
      rw [take_eraseStartIdx f d.index hs] at hx
      have := List.mem_takeWhile_imp hx
      simp at this
      omega

theorem Reachable_inv (d : DepositIndex) (h : Reachable d) : DepositInv d := by
  induction h with
  | empty => exact DepositInv_empty
  | push d a i _ ih => exact DepositInv_pushBlock d a i ih
  | pop d _ _ ih => exact DepositInv_popBlock d ih
  | pops d f _ ih => exact DepositInv_popBlocks d f ih

theorem amountAtHeight_correct (d : DepositIndex) (h : DepositInv d) (ht : Nat) :
    d.depositAmountAtHeight ht
      = match (d.index.filter (fun e => decide (e.height ≤ ht))).getLast? with
        | none => 0
        | some e => e.amount := by
  have hp : ∀ a b : DepositIndexEntry, a.height ≤ b.height →
      decide (b.height ≤ ht) = true → decide (a.height ≤ ht) = true := by
    intro a b hab hb
    simp at hb ⊢
    omega
  have hfil : d.index.filter (fun e => decide (e.height ≤ ht))
      = d.index.takeWhile (fun e => decide (e.height ≤ ht)) :=
    sorted_filter_eq_takeWhile _ hp d.index h.1
  by_cases hbc : d.blockCount = 0
  · have hnil : d.index = [] := by
      cases hidx : d.index with
      | nil => rfl
      | cons x xs =>
        have := h.2 x (by rw [hidx]; simp)
        omega
    unfold DepositIndex.depositAmountAtHeight
    rw [if_pos hbc, hnil]
    rfl
  · rw [hfil]
    unfold DepositIndex.depositAmountAtHeight DepositIndex.upperBoundIdx
    rw [if_neg hbc]
    cases hL : (d.index.takeWhile (fun e => decide (e.height ≤ ht))).length with
    | zero =>
      have htw : d.index.takeWhile (fun e => decide (e.height ≤ ht)) = [] :=
        List.length_eq_zero.1 hL
      rw [htw]
      simp
    | succ k =>
      have htake : d.index.takeWhile (fun e => decide (e.height ≤ ht))
          = d.index.take (k + 1) := by
        have hpre : d.index.takeWhile (fun e => decide (e.height ≤ ht)) <+: d.index :=
          List.takeWhile_prefix _
        have := List.prefix_iff_eq_take.1 hpre
        rw [hL] at this
        exact this
      have hgl : (d.index.takeWhile (fun e => decide (e.height ≤ ht))).getLast?
          = d.index[k]? := by
        rw [List.getLast?_eq_getElem?, hL, htake]
        show (d.index.take (k + 1))[k + 1 - 1]? = _
        have hred : k + 1 - 1 = k := rfl
        rw [hred, List.getElem?_take_of_succ]
      rw [hgl]
      simp [hL]
      cases d.index[k]? <;> rfl

theorem registered_iff (c : DepositCache) (k : Nat × Nat) :
    c.registered k = true ↔ k ∈ c.transactionOutputToDepositIndex.map Prod.fst := by
  simp [DepositCache.registered]

theorem registered_insertDeposit_mono (c : DepositCache) (dep : Deposit)
    (i h : Nat) (k : Nat × Nat) (hr : c.registered k = true) :
    (c.insertDeposit dep i h).1.registered k = true := by
  simp only [DepositCache.insertDeposit]
  split
  · exact hr
  · rw [registered_iff] at hr ⊢
    show k ∈ (c.transactionOutputToDepositIndex ++ [((h, i), c.deposits.length)]).map Prod.fst
    rw [List.map_append, List.mem_append]
    exact Or.inl hr

theorem registered_insertDeposit_other (c : DepositCache) (dep : Deposit)
    (i h : Nat) (k : Nat × Nat) (hk : (h, i) ≠ k) :
    (c.insertDeposit dep i h).1.registered k = c.registered k := by
  simp only [DepositCache.insertDeposit]
  split
  · rfl
  · show DepositCache.registered
        { deposits := _,
          transactionOutputToDepositIndex :=
            c.transactionOutputToDepositIndex ++ [((h, i), c.deposits.length)] } k
      = _
    unfold DepositCache.registered
    rw [List.map_append]
    simp [hk, Ne.symm hk]

theorem registered_insertDeposit_self (c : DepositCache) (dep : Deposit)
    (i h : Nat) (hr : c.registered (h, i) = false) :
    (c.insertDeposit dep i h).1.registered (h, i) = true := by
  simp only [DepositCache.insertDeposit]
  rw [if_neg (by simp [hr])]
  show DepositCache.registered
      { deposits := _,
        transactionOutputToDepositIndex :=
          c.transactionOutputToDepositIndex ++ [((h, i), c.deposits.length)] } (h, i)
    = true
  unfold DepositCache.registered
  rw [List.map_append]
  simp

theorem insertDeposit_of_registered (c : DepositCache) (dep : Deposit)
    (i h : Nat) (hr : c.registered (h, i) = true) :
    c.insertDeposit dep i h = (c, none) := by
  simp only [DepositCache.insertDeposit]
  rw [if_pos hr]

theorem successCount_of_registered (k : Nat × Nat)
    (calls : List (Deposit × Nat × Nat)) :
    ∀ c : DepositCache, c.registered k = true →
      DepositCache.successCount c k calls = 0 := by
  induction calls with
  | nil => intro c _; rfl
  | cons call rest ih =>
    intro c hr
    obtain ⟨dep, i, h⟩ := call
    show (if (h, i) = k ∧ (c.insertDeposit dep i h).2.isSome then 1 else 0)
        + DepositCache.successCount (c.insertDeposit dep i h).1 k rest = 0
    rw [ih (c.insertDeposit dep i h).1 (registered_insertDeposit_mono c dep i h k hr)]
    by_cases hk : (h, i) = k
    · have hnone : (c.insertDeposit dep i h).2 = none := by
        rw [insertDeposit_of_registered c dep i h (by rw [hk]; exact hr)]
      simp [hnone]
    · simp [hk]

theorem successCount_le_one_of_unregistered (k : Nat × Nat)
    (calls : List (Deposit × Nat × Nat)) :
    ∀ c : DepositCache, c.registered k = false →
      DepositCache.successCount c k calls ≤ 1 := by
  induction calls with
  | nil => intro c _; exact Nat.zero_le 1
  | cons call rest ih =>
    intro c hr
    obtain ⟨dep, i, h⟩ := call
    show (if (h, i) = k ∧ (c.insertDeposit dep i h).2.isSome then 1 else 0)
        + DepositCache.successCount (c.insertDeposit dep i h).1 k rest ≤ 1
    by_cases hk : (h, i) = k
    · have hreg : (c.insertDeposit dep i h).1.registered k = true := by
        rw [← hk]
        exact registered_insertDeposit_self c dep i h (by rw [hk]; exact hr)
      rw [successCount_of_registered k rest _ hreg]
      split <;> omega
    · have hsame : (c.insertDeposit dep i h).1.registered k = c.registered k :=
        registered_insertDeposit_other c dep i h k hk
      have := ih (c.insertDeposit dep i h).1 (by rw [hsame]; exact hr)
      simp [hk]
      omega

/-- The tracker data invariant: the global used-outputs set holds exactly
the outputs claimed by some pending record, hashes are pairwise distinct,
and no output is claimed by two records with different hashes. -/
def TrackerInv (w : WalletUnconfirmedTransactions) : Prop :=
  (∀ o : Nat × Nat, o ∈ w.usedOutputs ↔ ∃ p ∈ w.unconfirmedTxs, o ∈ p.2.usedOutputs)
  ∧ List.Pairwise (fun p q => p.1 ≠ q.1) w.unconfirmedTxs
  ∧ ∀ p ∈ w.unconfirmedTxs, ∀ q ∈ w.unconfirmedTxs, p.1 ≠ q.1 →
      ∀ o ∈ p.2.usedOutputs, o ∉ q.2.usedOutputs

theorem lookup_mem {l : List (Nat × UnconfirmedTransferDetails)} {k : Nat}
    {v : UnconfirmedTransferDetails} (h : l.lookup k = some v) : (k, v) ∈ l := by
  induction l with
  | nil => cases h
  | cons p rest ih =>
    obtain ⟨k', v'⟩ := p
    by_cases hk : k = k'
    · subst hk
      rw [List.lookup_cons_self] at h
      cases h
      exact List.mem_cons_self _ _
    · have hbeq : (k == k') = false := by simpa using hk
      rw [List.lookup_cons] at h
      simp only [hbeq] at h
      exact List.mem_cons_of_mem _ (ih h)

theorem lookup_eq_of_mem_unique {l : List (Nat × UnconfirmedTransferDetails)}
    {k : Nat} {v : UnconfirmedTransferDetails}
    (hpw : List.Pairwise (fun p q => p.1 ≠ q.1) l) (hm : (k, v) ∈ l) :
    l.lookup k = some v := by
  induction l with
  | nil => cases hm
  | cons p rest ih =>
    rw [List.pairwise_cons] at hpw
    obtain ⟨hall, hpw'⟩ := hpw
    rcases List.mem_cons.1 hm with heq | hm'
    · rw [← heq]
      exact List.lookup_cons_self
    · have hk : k ≠ p.1 := fun habs => (hall (k, v) hm') (by simp [habs])
      have hbeq : (k == p.1) = false := by simpa using hk
      rw [List.lookup_cons]
      simp only [hbeq]
      exact ih hpw' hm'

theorem trackerInv_empty : TrackerInv WalletUnconfirmedTransactions.empty := by
  refine ⟨?_, ?_, ?_⟩
  · intro o
    simp [WalletUnconfirmedTransactions.empty]
  · exact List.Pairwise.nil
  · intro p hp
    cases hp

theorem trackerInv_add (w : WalletUnconfirmedTransactions)
    (hash id amt : Nat) (outs : List (Nat × Nat)) (time : Nat)
    (hI : TrackerInv w)
    (hfresh : ∀ p ∈ w.unconfirmedTxs, p.1 ≠ hash)
    (houts : ∀ o ∈ outs, w.isUsed o = false) :
    TrackerInv (w.add hash id amt outs time) := by
  obtain ⟨h1, h2, h3⟩ := hI
  have husty : ∀ o ∈ outs, o ∉ w.usedOutputs := by
    intro o ho
    have := houts o ho
    simpa [WalletUnconfirmedTransactions.isUsed] using this
  refine ⟨?_, ?_, ?_⟩
  · intro o
    show o ∈ w.usedOutputs ++ outs
      ↔ ∃ p ∈ w.unconfirmedTxs ++ [(hash, ⟨id, amt, outs, time⟩)], o ∈ p.2.usedOutputs
    rw [List.mem_append, h1 o]
    constructor
    · rintro (⟨p, hp, hop⟩ | ho)
      · exact ⟨p, List.mem_append_left _ hp, hop⟩
      · exact ⟨(hash, ⟨id, amt, outs, time⟩),
          List.mem_append_right _ (by simp), ho⟩
    · rintro ⟨p, hp, hop⟩
      rcases List.mem_append.1 hp with hp1 | hp2
      · exact Or.inl ⟨p, hp1, hop⟩
      · simp at hp2
        rw [hp2] at hop
        exact Or.inr hop
  · show List.Pairwise _ (w.unconfirmedTxs ++ [(hash, ⟨id, amt, outs, time⟩)])
    rw [List.pairwise_append]
    refine ⟨h2, by simp, ?_⟩
    intro p hp q hq
    simp at hq
    rw [hq]
    exact hfresh p hp
  · intro p hp q hq hne o hop
    have hp' : p ∈ w.unconfirmedTxs ++ [(hash, ⟨id, amt, outs, time⟩)] := hp
    have hq' : q ∈ w.unconfirmedTxs ++ [(hash, ⟨id, amt, outs, time⟩)] := hq
    rcases List.mem_append.1 hp' with hp1 | hp1 <;>
      rcases List.mem_append.1 hq' with hq1 | hq1
    · exact h3 p hp1 q hq1 hne o hop
    · simp at hq1
      rw [hq1]
      intro hoq
      exact husty o hoq ((h1 o).2 ⟨p, hp1, hop⟩)
    · simp at hp1
      rw [hp1] at hop
      intro hoq
      exact husty o hop ((h1 o).2 ⟨q, hq1, hoq⟩)
    · simp at hp1 hq1
      rw [hp1, hq1] at hne
      simp at hne

theorem trackerInv_erase (w : WalletUnconfirmedTransactions) (hash : Nat)
    (hI : TrackerInv w) : TrackerInv (w.erase hash) := by
  obtain ⟨h1, h2, h3⟩ := hI
  unfold WalletUnconfirmedTransactions.erase
  cases hlk : w.unconfirmedTxs.lookup hash with
  | none => exact ⟨h1, h2, h3⟩
  | some r =>
    have hmem : (hash, r) ∈ w.unconfirmedTxs := lookup_mem hlk
    refine ⟨?_, ?_, ?_⟩
    · intro o
      show o ∈ w.usedOutputs.filter (fun o => decide (o ∉ r.usedOutputs))
        ↔ ∃ p ∈ w.unconfirmedTxs.filter (fun p => decide (p.1 ≠ hash)),
            o ∈ p.2.usedOutputs
      rw [List.mem_filter]
      simp only [decide_eq_true_eq]
      constructor
      · rintro ⟨ho, hor⟩
        obtain ⟨p, hp, hop⟩ := (h1 o).1 ho
        have hpne : p.1 ≠ hash := by
          intro heq
          have hsym : Symmetric
              (fun p q : Nat × UnconfirmedTransferDetails => p.1 ≠ q.1) :=
            fun x y hxy => Ne.symm hxy
          have hpr : p = (hash, r) := by
            by_contra hne
            exact List.Pairwise.forall hsym h2 hp hmem hne heq
          rw [hpr] at hop
          exact hor hop
        exact ⟨p, List.mem_filter.2 ⟨hp, by simp [hpne]⟩, hop⟩
      · rintro ⟨p, hpf, hop⟩
        have hp := (List.mem_filter.1 hpf).1
        have hpne : p.1 ≠ hash := by
          have := (List.mem_filter.1 hpf).2
          simpa using this
        exact ⟨(h1 o).2 ⟨p, hp, hop⟩, h3 p hp (hash, r) hmem hpne o hop⟩
    · exact List.Pairwise.sublist (List.filter_sublist _) h2
    · intro p hpf q hqf hne o hop
      exact h3 p (List.mem_filter.1 hpf).1 q (List.mem_filter.1 hqf).1 hne o hop

theorem trackerReachable_inv (w : WalletUnconfirmedTransactions)
    (h : TrackerReachable w) : TrackerInv w := by
  induction h with
  | empty => exact trackerInv_empty
  | add w hash id amt outs time _ hfresh houts ih =>
    exact trackerInv_add w hash id amt outs time ih hfresh houts
  | erase w hash _ ih => exact trackerInv_erase w hash ih

theorem find?_mark_deleted (hsh : Nat) :
    ∀ (l : List CacheTransaction) (tx : CacheTransaction),
      l.find? (fun t => t.hash == hsh) = some tx →
      (l.map (fun t =>
          if t.hash = hsh then { t with state := TxState.Deleted } else t)).find?
          (fun t => t.hash == hsh)
        = some { tx with state := TxState.Deleted } := by
  intro l
  induction l with
  | nil => intro tx h; cases h
  | cons t0 rest ih =>
    intro tx h
    by_cases h0 : t0.hash = hsh
    · rw [List.find?_cons_of_pos rest (by simpa using h0)] at h
      cases h
      rw [List.map_cons, if_pos h0]
      exact List.find?_cons_of_pos _ (by simpa using h0)
    · rw [List.find?_cons_of_neg rest (by simpa using h0)] at h
      rw [List.map_cons, if_neg h0]
      rw [List.find?_cons_of_neg _ (by simpa using h0)]
      exact ih tx h

/-! ## Claim theorems -/

/-- C1: `DepositIndex::pushBlock(amount, interest)`, on running sums that do
not overflow the machine words, increments `size()` by exactly one; when
`amount ≠ 0` it appends exactly one checkpoint whose height is the pre-call
block count, whose cumulative amount is the previous checkpoint's cumulative
amount plus `amount` (the amount itself when the index was empty), and whose
cumulative interest is the previous cumulative interest plus `interest`;
when `amount = 0` the checkpoint sequence is left unchanged. -/
theorem C1_pushBlock_spec (d : DepositIndex) (amount : Int) (interest : Nat)
    (hAmtLo : -(2 ^ 63) ≤ amount + d.lastAmount)
    (hAmtHi : amount + d.lastAmount < 2 ^ 63)
    (hIntHi : interest + d.lastInterest < 2 ^ 64)
    (hBc : d.blockCount + 1 < 2 ^ 32) :
    (d.pushBlock amount interest).size = d.size + 1
    ∧ (amount ≠ 0 →
        (d.pushBlock amount interest).index
          = d.index ++ [⟨d.blockCount, amount + d.lastAmount, interest + d.lastInterest⟩])
    ∧ (amount ≠ 0 → d.index = [] →
        (d.pushBlock amount interest).index = [⟨d.blockCount, amount, interest⟩])
    ∧ (amount = 0 → (d.pushBlock amount interest).index = d.index) := by
  refine ⟨rfl, ?_, ?_, ?_⟩
  · intro h
    exact pushBlock_index_of_ne d amount interest h
  · intro h hemp
    rw [pushBlock_index_of_ne d amount interest h, hemp]
    simp [DepositIndex.lastAmount, DepositIndex.lastInterest, hemp]
  · intro h
    subst h
    exact pushBlock_index_of_zero d interest

theorem C1_pushBlock_spec_witness :
    (-(2 ^ 63) ≤ (5 : Int) + DepositIndex.empty.lastAmount
      ∧ (5 : Int) + DepositIndex.empty.lastAmount < 2 ^ 63
      ∧ 2 + DepositIndex.empty.lastInterest < 2 ^ 64
      ∧ DepositIndex.empty.blockCount + 1 < 2 ^ 32)
    ∧ ((DepositIndex.empty.pushBlock 5 2).size = DepositIndex.empty.size + 1
      ∧ ((5 : Int) ≠ 0 →
          (DepositIndex.empty.pushBlock 5 2).index
            = DepositIndex.empty.index
              ++ [⟨DepositIndex.empty.blockCount, 5 + DepositIndex.empty.lastAmount,
                    2 + DepositIndex.empty.lastInterest⟩])
      ∧ ((5 : Int) ≠ 0 → DepositIndex.empty.index = [] →
          (DepositIndex.empty.pushBlock 5 2).index
            = [⟨DepositIndex.empty.blockCount, 5, 2⟩])
      ∧ ((5 : Int) = 0 → (DepositIndex.empty.pushBlock 5 2).index = DepositIndex.empty.index)) :=
  ⟨⟨by decide, by decide, by decide, by decide⟩,
   C1_pushBlock_spec DepositIndex.empty 5 2 (by decide) (by decide) (by decide) (by decide)⟩

/-- C2: for every interleaved sequence of `pushBlock`/`popBlock` calls from
the empty `DepositIndex` in which each `popBlock` is applied to a state with
positive block count, `size()` equals the number of pushes minus the number
of pops, and `fullDepositAmount()` equals the amount accumulated by exactly
the pushes no pop has undone; moreover `pushBlock` immediately followed by
`popBlock` restores any state satisfying the index invariant exactly. -/
theorem C2_push_pop_rollback (ops : List DepositOp)
    (hv : validOps DepositIndex.empty ops = true) :
    (applyOps DepositIndex.empty ops).size = numPushes ops - numPops ops
    ∧ (applyOps DepositIndex.empty ops).fullDepositAmount
        = ((survivingPushes ops).map Prod.fst).sum
    ∧ ∀ (d : DepositIndex) (a : Int) (i : Nat),
        DepositInv d → (d.pushBlock a i).popBlock = d := by
  have h0 := applyOps_blockCount ops DepositIndex.empty hv
  have hfold : applyOps DepositIndex.empty ops
      = pushAll DepositIndex.empty (survivingPushes ops) :=
    applyOps_stack ops [] hv
  refine ⟨?_, ?_, ?_⟩
  · have hz : DepositIndex.empty.blockCount = 0 := rfl
    show (applyOps DepositIndex.empty ops).blockCount = _
    omega
  · rw [hfold, pushAll_fullAmount]
    simp [DepositIndex.empty, DepositIndex.fullDepositAmount]
  · intro d a i h
    exact pushBlock_popBlock d a i h.2

theorem C2_push_pop_rollback_witness :
    validOps DepositIndex.empty
        [DepositOp.push 100 1, DepositOp.push 50 2, DepositOp.pop] = true
    ∧ ((applyOps DepositIndex.empty
          [DepositOp.push 100 1, DepositOp.push 50 2, DepositOp.pop]).size
        = numPushes [DepositOp.push 100 1, DepositOp.push 50 2, DepositOp.pop]
          - numPops [DepositOp.push 100 1, DepositOp.push 50 2, DepositOp.pop]
      ∧ (applyOps DepositIndex.empty
          [DepositOp.push 100 1, DepositOp.push 50 2, DepositOp.pop]).fullDepositAmount
        = ((survivingPushes
              [DepositOp.push 100 1, DepositOp.push 50 2, DepositOp.pop]).map Prod.fst).sum
      ∧ ∀ (d : DepositIndex) (a : Int) (i : Nat),
          DepositInv d → (d.pushBlock a i).popBlock = d) :=
  ⟨by decide,
   C2_push_pop_rollback [DepositOp.push 100 1, DepositOp.push 50 2, DepositOp.pop]
     (by decide)⟩

/-- C3: on a height-sorted `DepositIndex` (the precondition of the
`std::upper_bound` the code calls), `popBlocks(from)` with
`from ≥ blockCount` returns 0 and changes nothing; with `from < blockCount`
it removes exactly the checkpoints with height `≥ from` (keeping precisely
the checkpoints with height `< from`, unchanged and in order), sets the
logical block count to `from`, and returns the number of blocks rolled
back. -/
theorem C3_popBlocks_spec (d : DepositIndex) (from_ : Nat) (hs : HeightsSorted d) :
    (from_ ≥ d.blockCount → d.popBlocks from_ = (d, 0))
    ∧ (from_ < d.blockCount →
        (d.popBlocks from_).1.index
            = d.index.filter (fun e => decide (e.height < from_))
        ∧ (d.popBlocks from_).1.blockCount = from_
        ∧ (d.popBlocks from_).2 = d.blockCount - from_) := by
  constructor
  · intro h
    unfold DepositIndex.popBlocks
    rw [if_pos h]
  · intro h
    have hnot : ¬ from_ ≥ d.blockCount := by omega
    have hpop : d.popBlocks from_
        = ({ index := d.index.take (DepositIndex.eraseStartIdx d.index from_),
             blockCount := d.blockCount - (d.blockCount - from_) },
           d.blockCount - from_) := by
      unfold DepositIndex.popBlocks
      rw [if_neg hnot]
    refine ⟨?_, ?_, ?_⟩
    · rw [hpop]
      show d.index.take (DepositIndex.eraseStartIdx d.index from_) = _
      rw [take_eraseStartIdx from_ d.index hs,
        ← sorted_filter_eq_takeWhile _ ?_ d.index hs]
      intro a b hab hpb
      simp at hpb ⊢
      omega
    · rw [hpop]
      show d.blockCount - (d.blockCount - from_) = from_
      omega
    · rw [hpop]

theorem C3_popBlocks_spec_witness :
    HeightsSorted (DepositIndex.mk [⟨0, 100, 0⟩, ⟨2, 150, 0⟩] 4)
    ∧ ((2 ≥ (DepositIndex.mk [⟨0, 100, 0⟩, ⟨2, 150, 0⟩] 4).blockCount →
          (DepositIndex.mk [⟨0, 100, 0⟩, ⟨2, 150, 0⟩] 4).popBlocks 2
            = (DepositIndex.mk [⟨0, 100, 0⟩, ⟨2, 150, 0⟩] 4, 0))
      ∧ (2 < (DepositIndex.mk [⟨0, 100, 0⟩, ⟨2, 150, 0⟩] 4).blockCount →
          ((DepositIndex.mk [⟨0, 100, 0⟩, ⟨2, 150, 0⟩] 4).popBlocks 2).1.index
              = (DepositIndex.mk [⟨0, 100, 0⟩, ⟨2, 150, 0⟩] 4).index.filter
                  (fun e => decide (e.height < 2))
          ∧ ((DepositIndex.mk [⟨0, 100, 0⟩, ⟨2, 150, 0⟩] 4).popBlocks 2).1.blockCount = 2
          ∧ ((DepositIndex.mk [⟨0, 100, 0⟩, ⟨2, 150, 0⟩] 4).popBlocks 2).2
              = (DepositIndex.mk [⟨0, 100, 0⟩, ⟨2, 150, 0⟩] 4).blockCount - 2)) :=
  ⟨by decide,
   C3_popBlocks_spec (DepositIndex.mk [⟨0, 100, 0⟩, ⟨2, 150, 0⟩] 4) 2 (by decide)⟩

/-- C4: the claim that the token-index queries only ever read valid
positions fails on the code: `full_token_amount` dereferences the decrement
of `token_find`'s iterator with no bounds check — on the empty index (and
for any token id smaller than every stored one) the step-back is applied at
the beginning of the sequence and the read is out of bounds (`none` in the
model), instead of the well-defined zero the specification asks for. -/
theorem C4_token_query_out_of_bounds :
    TokenIndex.full_token_amount TokenIndex.empty 0 = none
    ∧ TokenIndex.tokens_at_height (TokenIndex.empty.pushBlock 5 7 0) 0 3 = none := by
  decide

/-- C5 as stated is false: `TokenTxIndex::pushBlock` stores the pushed `id`
directly in the new checkpoint instead of adding it to the previous
checkpoint's secondary value.  After `pushBlock(5, 7)` then `pushBlock(3, 4)`
the last checkpoint's secondary field is `4`, not `7 + 4`. -/
theorem C5_counterexample :
    (((TokenTxIndex.empty.pushBlock 5 7).pushBlock 3 4).index.getLast?).map
        TokenTxIndexEntry.id = some 4
    ∧ (4 : Nat) ≠ 7 + 4 := by
  decide

/-- C5 amended: in the deposit/interest variant a `pushBlock` with non-zero
amount appends a checkpoint whose secondary (interest) field is the previous
checkpoint's secondary plus the pushed secondary, and after any sequence of
pushes all with non-zero amounts the last checkpoint's secondary equals the
sum of the pushed secondary values; in the `TokenTxIndex` variant the
appended checkpoint's secondary (`id`) field is the pushed id itself, not a
running sum. -/
theorem C5_amended_secondary (d : DepositIndex) (t : TokenTxIndex)
    (a : Int) (i id : Nat) :
    (a ≠ 0 →
      (d.pushBlock a i).index.getLast?
        = some ⟨d.blockCount, a + d.lastAmount, i + d.lastInterest⟩)
    ∧ (a ≠ 0 →
      (t.pushBlock a id).index.getLast?
        = some ⟨t.blockCount, a + t.lastAmount, id⟩)
    ∧ ∀ l : List (Int × Nat), (∀ p ∈ l, p.1 ≠ 0) →
        (pushAll DepositIndex.empty l).fullInterestAmount = (l.map Prod.snd).sum := by
  refine ⟨?_, ?_, ?_⟩
  · intro h
    rw [pushBlock_index_of_ne d a i h]
    simp
  · intro h
    simp [TokenTxIndex.pushBlock, h]
  · intro l hl
    rw [pushAll_fullInterest l DepositIndex.empty hl]
    simp [DepositIndex.empty, DepositIndex.fullInterestAmount]

theorem C5_amended_secondary_witness :
    ((5 : Int) ≠ 0
      ∧ ∀ p ∈ [((5 : Int), 2)], p.1 ≠ 0)
    ∧ ((DepositIndex.empty.pushBlock 5 2).index.getLast?
        = some ⟨DepositIndex.empty.blockCount, 5 + DepositIndex.empty.lastAmount,
                 2 + DepositIndex.empty.lastInterest⟩)
    ∧ ((TokenTxIndex.empty.pushBlock 5 9).index.getLast?
        = some ⟨TokenTxIndex.empty.blockCount, 5 + TokenTxIndex.empty.lastAmount, 9⟩)
    ∧ (pushAll DepositIndex.empty [((5 : Int), 2)]).fullInterestAmount
        = ([((5 : Int), 2)].map Prod.snd).sum :=
  ⟨⟨by decide, by decide⟩,
   (C5_amended_secondary DepositIndex.empty TokenTxIndex.empty 5 2 9).1 (by decide),
   (C5_amended_secondary DepositIndex.empty TokenTxIndex.empty 5 2 9).2.1 (by decide),
   (C5_amended_secondary DepositIndex.empty TokenTxIndex.empty 5 2 9).2.2
     [(5, 2)] (by decide)⟩

/-- C10: every `DepositIndex` state reachable from the empty index by
`pushBlock`, `popBlock` (on positive block count) and `popBlocks` has
strictly increasing checkpoint heights, every checkpoint height strictly
below the logical block count, and — as the payoff of the invariant — the
upper-bound binary search of the height queries returns the correct
checkpoint: `depositAmountAtHeight h` is the cumulative amount of the last
checkpoint with height `≤ h` (zero if there is none). -/
theorem C10_depositIndex_invariant (d : DepositIndex) (hd : Reachable d) :
    DepositInv d
    ∧ ∀ h : Nat, d.depositAmountAtHeight h
        = match (d.index.filter (fun e => decide (e.height ≤ h))).getLast? with
          | none => 0
          | some e => e.amount :=
  ⟨Reachable_inv d hd, fun h => amountAtHeight_correct d (Reachable_inv d hd) h⟩

theorem C10_depositIndex_invariant_witness :
    Reachable (DepositIndex.empty.pushBlock 5 2)
    ∧ (DepositInv (DepositIndex.empty.pushBlock 5 2)
      ∧ ∀ h : Nat, (DepositIndex.empty.pushBlock 5 2).depositAmountAtHeight h
          = match ((DepositIndex.empty.pushBlock 5 2).index.filter
                (fun e => decide (e.height ≤ h))).getLast? with
            | none => 0
            | some e => e.amount) :=
  have hr : Reachable (DepositIndex.empty.pushBlock 5 2) :=
    Reachable.push DepositIndex.empty 5 2 Reachable.empty
  ⟨hr, C10_depositIndex_invariant (DepositIndex.empty.pushBlock 5 2) hr⟩

/-- C6: for a fixed `(transactionHash, indexInTransaction)` key, the first
`insertDeposit` call succeeds, allocating the next dense `DepositId` and
registering the key in the output-to-deposit index; any call on a state
where the key is already registered is rejected as a no-op that changes
neither the deposit table nor the index; and over any sequence of
`insertDeposit` calls, at most one call for a given key ever succeeds (none
if the key was registered to begin with). -/
theorem C6_insertDeposit_at_most_once (c : DepositCache) (dep : Deposit) (i h : Nat) :
    (c.registered (h, i) = false →
        (c.insertDeposit dep i h).2 = some c.deposits.length
      ∧ (c.insertDeposit dep i h).1.deposits = c.deposits ++ [dep]
      ∧ (c.insertDeposit dep i h).1.transactionOutputToDepositIndex
          = c.transactionOutputToDepositIndex ++ [((h, i), c.deposits.length)]
      ∧ (c.insertDeposit dep i h).1.registered (h, i) = true)
    ∧ (c.registered (h, i) = true → c.insertDeposit dep i h = (c, none))
    ∧ (∀ (k : Nat × Nat) (calls : List (Deposit × Nat × Nat)),
        (c.registered k = false → DepositCache.successCount c k calls ≤ 1)
      ∧ (c.registered k = true → DepositCache.successCount c k calls = 0)) := by
  refine ⟨?_, ?_, ?_⟩
  · intro hr
    have hins : c.insertDeposit dep i h
        = ({ deposits := c.deposits ++ [dep]
             transactionOutputToDepositIndex :=
               c.transactionOutputToDepositIndex ++ [((h, i), c.deposits.length)] },
           some c.deposits.length) := by
      simp only [DepositCache.insertDeposit]
      rw [if_neg (by simp [hr])]
    exact ⟨by rw [hins], by rw [hins], by rw [hins],
      registered_insertDeposit_self c dep i h hr⟩
  · exact insertDeposit_of_registered c dep i h
  · intro k calls
    exact ⟨successCount_le_one_of_unregistered k calls c,
      successCount_of_registered k calls c⟩

theorem C6_insertDeposit_at_most_once_witness :
    DepositCache.empty.registered (7, 0) = false
    ∧ ((DepositCache.empty.insertDeposit ⟨0, none, 100, 5, 10, true⟩ 0 7).2
          = some DepositCache.empty.deposits.length
      ∧ (DepositCache.empty.insertDeposit ⟨0, none, 100, 5, 10, true⟩ 0 7).1.deposits
          = DepositCache.empty.deposits ++ [⟨0, none, 100, 5, 10, true⟩]
      ∧ (DepositCache.empty.insertDeposit
            ⟨0, none, 100, 5, 10, true⟩ 0 7).1.transactionOutputToDepositIndex
          = DepositCache.empty.transactionOutputToDepositIndex
              ++ [((7, 0), DepositCache.empty.deposits.length)]
      ∧ (DepositCache.empty.insertDeposit
            ⟨0, none, 100, 5, 10, true⟩ 0 7).1.registered (7, 0) = true)
    ∧ ((DepositCache.empty.insertDeposit ⟨0, none, 100, 5, 10, true⟩ 0 7).1.registered
          (7, 0) = true
      → (DepositCache.empty.insertDeposit
            ⟨0, none, 100, 5, 10, true⟩ 0 7).1.insertDeposit ⟨0, none, 50, 1, 20, true⟩ 0 7
          = ((DepositCache.empty.insertDeposit ⟨0, none, 100, 5, 10, true⟩ 0 7).1, none)) :=
  ⟨by decide,
   (C6_insertDeposit_at_most_once DepositCache.empty ⟨0, none, 100, 5, 10, true⟩ 0 7).1
     (by decide),
   (C6_insertDeposit_at_most_once
      (DepositCache.empty.insertDeposit ⟨0, none, 100, 5, 10, true⟩ 0 7).1
      ⟨0, none, 50, 1, 20, true⟩ 0 7).2.1⟩

/-- C7: in every tracker state reachable under the caller contract, after
`add` records an output among a transaction's used outputs `isUsed` returns
true; it stays true across further `add`s and across `erase` of any other
hash, and becomes false after `erase` of that transaction's hash; and as an
invariant no output is claimed by two live pending transactions
simultaneously. -/
theorem C7_used_outputs_tracking (w : WalletUnconfirmedTransactions)
    (hw : TrackerReachable w) :
    (∀ p ∈ w.unconfirmedTxs, ∀ q ∈ w.unconfirmedTxs, p.1 ≠ q.1 →
        ∀ o ∈ p.2.usedOutputs, o ∉ q.2.usedOutputs)
    ∧ (∀ (hash id amt : Nat) (outs : List (Nat × Nat)) (time : Nat) (o : Nat × Nat),
        o ∈ outs → (w.add hash id amt outs time).isUsed o = true)
    ∧ (∀ (hash : Nat) (r : UnconfirmedTransferDetails),
        (hash, r) ∈ w.unconfirmedTxs → ∀ o ∈ r.usedOutputs,
          w.isUsed o = true
          ∧ (∀ (h' id amt : Nat) (outs : List (Nat × Nat)) (t : Nat),
              (w.add h' id amt outs t).isUsed o = true)
          ∧ (∀ h' : Nat, h' ≠ hash → (w.erase h').isUsed o = true)
          ∧ (w.erase hash).isUsed o = false) := by
  obtain ⟨h1, h2, h3⟩ := trackerReachable_inv w hw
  refine ⟨h3, ?_, ?_⟩
  · intro hash id amt outs time o ho
    show (w.usedOutputs ++ outs).contains o = true
    simp [ho]
  · intro hash r hmem o ho
    have hused : o ∈ w.usedOutputs := (h1 o).2 ⟨(hash, r), hmem, ho⟩
    refine ⟨?_, ?_, ?_, ?_⟩
    · simp [WalletUnconfirmedTransactions.isUsed, hused]
    · intro h' id amt outs t
      show (w.usedOutputs ++ outs).contains o = true
      simp [hused]
    · intro h' hne
      unfold WalletUnconfirmedTransactions.erase
      cases hlk : w.unconfirmedTxs.lookup h' with
      | none => simp [WalletUnconfirmedTransactions.isUsed, hused]
      | some r' =>
        have hmem' : (h', r') ∈ w.unconfirmedTxs := lookup_mem hlk
        have hdisj : o ∉ r'.usedOutputs :=
          h3 (hash, r) hmem (h', r') hmem' (by simpa using Ne.symm hne) o ho
        show (w.usedOutputs.filter (fun x => decide (x ∉ r'.usedOutputs))).contains o
            = true
        simp [List.mem_filter, hused, hdisj]
    · unfold WalletUnconfirmedTransactions.erase
      have hlk : w.unconfirmedTxs.lookup hash = some r :=
        lookup_eq_of_mem_unique h2 hmem
      simp only [hlk]
      show (w.usedOutputs.filter (fun x => decide (x ∉ r.usedOutputs))).contains o
          = false
      simp [List.mem_filter, ho]

theorem C7_used_outputs_tracking_witness :
    TrackerReachable (WalletUnconfirmedTransactions.empty.add 1 0 5 [(10, 0)] 0)
    ∧ ((∀ p ∈ (WalletUnconfirmedTransactions.empty.add 1 0 5 [(10, 0)] 0).unconfirmedTxs,
          ∀ q ∈ (WalletUnconfirmedTransactions.empty.add 1 0 5 [(10, 0)] 0).unconfirmedTxs,
            p.1 ≠ q.1 → ∀ o ∈ p.2.usedOutputs, o ∉ q.2.usedOutputs)
      ∧ (∀ (hash id amt : Nat) (outs : List (Nat × Nat)) (time : Nat) (o : Nat × Nat),
          o ∈ outs →
            ((WalletUnconfirmedTransactions.empty.add 1 0 5 [(10, 0)] 0).add
                hash id amt outs time).isUsed o = true)
      ∧ (∀ (hash : Nat) (r : UnconfirmedTransferDetails),
          (hash, r) ∈ (WalletUnconfirmedTransactions.empty.add 1 0 5 [(10, 0)] 0).unconfirmedTxs →
            ∀ o ∈ r.usedOutputs,
              (WalletUnconfirmedTransactions.empty.add 1 0 5 [(10, 0)] 0).isUsed o = true
              ∧ (∀ (h' id amt : Nat) (outs : List (Nat × Nat)) (t : Nat),
                  ((WalletUnconfirmedTransactions.empty.add 1 0 5 [(10, 0)] 0).add
                      h' id amt outs t).isUsed o = true)
              ∧ (∀ h' : Nat, h' ≠ hash →
                  ((WalletUnconfirmedTransactions.empty.add 1 0 5 [(10, 0)] 0).erase
                      h').isUsed o = true)
              ∧ ((WalletUnconfirmedTransactions.empty.add 1 0 5 [(10, 0)] 0).erase
                    hash).isUsed o = false)) :=
  have hr : TrackerReachable (WalletUnconfirmedTransactions.empty.add 1 0 5 [(10, 0)] 0) :=
    TrackerReachable.add WalletUnconfirmedTransactions.empty 1 0 5 [(10, 0)] 0
      TrackerReachable.empty (by decide) (by decide)
  ⟨hr, C7_used_outputs_tracking (WalletUnconfirmedTransactions.empty.add 1 0 5 [(10, 0)] 0) hr⟩

/-- C8: calling `onTransactionDeleted(hash)` twice in a row yields the same
final cache state as calling it once — the second call finds the transaction
already marked `Deleted` (or absent) and is a no-op returning an empty event
sequence. -/
theorem C8_onTransactionDeleted_idempotent (c : TransactionsCache) (hsh : Nat) :
    (c.onTransactionDeleted hsh).1.onTransactionDeleted hsh
      = ((c.onTransactionDeleted hsh).1, []) := by
  have hstop : ∀ (c₂ : TransactionsCache) (tx' : CacheTransaction),
      c₂.transactions.find? (fun t => t.hash == hsh) = some tx' →
      tx'.state = TxState.Deleted →
      c₂.onTransactionDeleted hsh = (c₂, []) := by
    intro c₂ tx' hfind hdel
    unfold TransactionsCache.onTransactionDeleted
    simp only [hfind]
    rw [if_pos hdel]
  cases hf : c.transactions.find? (fun t => t.hash == hsh) with
  | none =>
    have h1 : c.onTransactionDeleted hsh = (c, []) := by
      unfold TransactionsCache.onTransactionDeleted
      simp only [hf]
    rw [h1]
    exact h1
  | some tx =>
    by_cases hdel : tx.state = TxState.Deleted
    · have h1 : c.onTransactionDeleted hsh = (c, []) := hstop c tx hf hdel
      rw [h1]
      exact h1
    · have h1 : (c.onTransactionDeleted hsh).1.transactions
          = c.transactions.map (fun t =>
              if t.hash = hsh then { t with state := TxState.Deleted } else t) := by
        unfold TransactionsCache.onTransactionDeleted
        simp only [hf]
        rw [if_neg hdel]
      have hf2 : (c.onTransactionDeleted hsh).1.transactions.find?
            (fun t => t.hash == hsh)
          = some { tx with state := TxState.Deleted } := by
        rw [h1]
        exact find?_mark_deleted hsh c.transactions tx hf
      exact hstop (c.onTransactionDeleted hsh).1 _ hf2 rfl

/-- C9: within one serialization pass, `setObjectVersion` succeeds exactly
when no version is stored — a second call raises
"Object version is already set" and leaves the stored version unchanged —
and `getObjectVersion` raises "Object version is not set" when no version
has been set and otherwise returns exactly the value previously set. -/
theorem C9_objectVersion_once (v₀ v : Nat) :
    setObjectVersion none v = (some v, none)
    ∧ setObjectVersion (some v₀) v = (some v₀, some "Object version is already set")
    ∧ getObjectVersion (none : Option Nat) = Except.error "Object version is not set"
    ∧ getObjectVersion (some v₀) = Except.ok v₀
    ∧ getObjectVersion (setObjectVersion none v).1 = Except.ok v :=
  ⟨rfl, rfl, rfl, rfl, rfl⟩

end Conceal
